import Mathlib

/-!
Verification development for the bandwidth-uece ingestion service
(`app.py`).  The Python source is shallowly embedded below: pure string
processing is modelled over `List Char`, Python `float` parsing is
modelled exactly, as a numerator/denominator pair (all inputs the claims
touch are short decimal literals, where binary floating point and exact
arithmetic agree), Python `int()` is truncation toward zero
(`Int.tdiv`), and code paths that raise an exception return `none`.
The SQLite `consumo_banda` table is modelled as a list of records keyed
by (interface, data_referencia, periodo); `INSERT OR REPLACE` deletes
the conflicting row and appends the new one (the autoincrement `id` and
`created_at` columns are not part of the model).
-/

/-- ASCII decimal digit test, the regex class `\d` of the source
restricted to ASCII (in Python `\d` is Unicode-aware; every input the
claims concern is ASCII). -/
def isDigitC (c : Char) : Bool := decide (48 ≤ c.toNat ∧ c.toNat ≤ 57)

/-- The regex class `[\d.]` used for the numeric portion. -/
def isNumC (c : Char) : Bool := isDigitC c || decide (c = '.')

/-- The regex class `[a-z]` used for the unit portion. -/
def isLowerC (c : Char) : Bool := decide (97 ≤ c.toNat ∧ c.toNat ≤ 122)

/-- The default whitespace set of Python `str.strip()` (ASCII part). -/
def isSpaceC (c : Char) : Bool :=
  decide (c = ' ' ∨ c = '\t' ∨ c = '\n' ∨ c = '\r' ∨ c = '\x0b' ∨ c = '\x0c')

/-- Python `str.lower()` on an ASCII character. -/
def pyLowerChar (c : Char) : Char :=
  if 65 ≤ c.toNat ∧ c.toNat ≤ 90 then Char.ofNat (c.toNat + 32) else c

/-- Python `str.strip()`. -/
def trimChars (l : List Char) : List Char :=
  ((l.dropWhile isSpaceC).reverse.dropWhile isSpaceC).reverse

/-- Numeric value of one ASCII digit. -/
def digitVal (c : Char) : Nat := c.toNat - 48

def digitsValAux (a : Nat) : List Char → Nat
  | [] => a
  | c :: l => digitsValAux (a * 10 + digitVal c) l

/-- Value of a decimal digit string read left to right. -/
def digitsVal (l : List Char) : Nat := digitsValAux 0 l

/-- Python `float()` on an unsigned body consisting of digits and dots:
`<digits>`, `<digits>.<digits>`, `<digits>.` or `.<digits>`.  The result
is the exact value as a numerator/denominator pair (denominator a power
of ten, hence positive).  Exponent forms and `inf`/`nan` are not
modelled (no claim touches them).  `none` models a raised
`ValueError`. -/
def floatChars? (l : List Char) : Option (Int × Nat) :=
  match l.dropWhile isDigitC with
  | [] =>
    if l.takeWhile isDigitC = [] then none
    else some ((digitsVal (l.takeWhile isDigitC) : Int), 1)
  | '.' :: fp =>
    if fp.all isDigitC ∧ (l.takeWhile isDigitC ≠ [] ∨ fp ≠ []) then
      some (((digitsVal (l.takeWhile isDigitC) * 10 ^ fp.length + digitsVal fp : Nat) : Int),
        10 ^ fp.length)
    else none
  | _ => none

/-- Sign dispatch of Python `float()`: an optional leading `-` or `+`
before the unsigned body. -/
def pyFloatSigned (t : List Char) : Option (Int × Nat) :=
  match t with
  | [] => none
  | c :: rest =>
    if c = '-' then (floatChars? rest).map (fun nd => (-nd.1, nd.2))
    else if c = '+' then floatChars? rest
    else floatChars? (c :: rest)

/-- Python `float()` including surrounding whitespace and an optional
sign; `none` models a raised `ValueError`. -/
def pyFloat? (l : List Char) : Option (Int × Nat) :=
  pyFloatSigned (trimChars l)

/-- Python `int()` on the exact value `n / d` (`d > 0` in every use):
truncation toward zero. -/
def fracTrunc (n : Int) (d : Nat) : Int := Int.tdiv n (d : Int)

/-- The `units` dict of `convert_to_bytes`. -/
def sizeUnits : List (List Char × Nat) :=
  [("kib".data, 1024), ("mib".data, 1024 ^ 2), ("gib".data, 1024 ^ 3), ("tib".data, 1024 ^ 4),
   ("kb".data, 1000), ("mb".data, 1000 ^ 2), ("gb".data, 1000 ^ 3), ("tb".data, 1000 ^ 4)]

/-- The `units` dict of `convert_speed_to_bps`. -/
def rateUnits : List (List Char × Nat) :=
  [("kbit/s".data, 1000), ("mbit/s".data, 1000 ^ 2),
   ("gbit/s".data, 1000 ^ 3), ("tbit/s".data, 1000 ^ 4)]

/-- Python `dict.get(unit, 1)` over an association list. -/
def unitsGet : List (List Char × Nat) → List Char → Nat
  | [], _ => 1
  | (k, m) :: rest, u => if k = u then m else unitsGet rest u

/-- `convert_to_bytes` of `app.py`.  The argument is `none` for Python
`None` (an absent field).  The regex `([\d.]+)([a-z]+)` is anchored at
the start and matches a prefix: a maximal nonempty run of `[\d.]`
followed by at least one `[a-z]` letter; the captured unit is the
maximal letter run.  The multiplier is an integer, so
`int(float(number) * mult)` is the truncation of `num * mult / den`.
The result is `none` when the Python code would raise (`float` failing
on the captured number or on the whole value). -/
def convert_to_bytes : Option String → Option Int
  | none => some 0
  | some v =>
    if v = "" ∨ v = "None" then some 0
    else
      let l := (v.data.map pyLowerChar).filter (fun c => c ≠ ' ')
      let number := l.takeWhile isNumC
      let unit := (l.dropWhile isNumC).takeWhile isLowerC
      if number ≠ [] ∧ unit ≠ [] then
        (floatChars? number).map (fun nd => fracTrunc (nd.1 * (unitsGet sizeUnits unit : Int)) nd.2)
      else (pyFloat? l).map (fun nd => fracTrunc nd.1 nd.2)

/-- `convert_speed_to_bps` of `app.py`.  The regex
`([\d.]+)([a-z]+/s)` additionally requires the literal `/s` right after
the maximal letter run (`[a-z]` cannot match `/`, so backtracking cannot
produce any other split). -/
def convert_speed_to_bps : Option String → Option Int
  | none => some 0
  | some v =>
    if v = "" ∨ v = "None" then some 0
    else
      let l := (v.data.map pyLowerChar).filter (fun c => c ≠ ' ')
      let number := l.takeWhile isNumC
      let rest := l.dropWhile isNumC
      let letters := rest.takeWhile isLowerC
      let after := rest.dropWhile isLowerC
      if number ≠ [] ∧ letters ≠ [] ∧ after.take 2 = ['/', 's'] then
        (floatChars? number).map
          (fun nd => fracTrunc (nd.1 * (unitsGet rateUnits (letters ++ ['/', 's']) : Int)) nd.2)
      else (pyFloat? l).map (fun nd => fracTrunc nd.1 nd.2)

/-- Python `str.split` on a single newline character. -/
def splitLines : List Char → List (List Char)
  | [] => [[]]
  | c :: rest =>
    if c = '\n' then [] :: splitLines rest
    else
      match splitLines rest with
      | [] => [[c]]
      | l :: ls => (c :: l) :: ls

/-- One pass of `str.replace(pat, '')`: delete every non-overlapping
occurrence of `pat`, scanning left to right.  The fuel argument (always
called with the length of the list) keeps the recursion structural; it
cannot run out because every step consumes at least one character for
the nonempty patterns the parser uses. -/
def delOccurs (pat : List Char) : Nat → List Char → List Char
  | _, [] => []
  | 0, l => l
  | fuel + 1, c :: rest =>
    if pat.isPrefixOf (c :: rest) then delOccurs pat fuel ((c :: rest).drop pat.length)
    else c :: delOccurs pat fuel rest

/-- Python `line.replace(pat, '')` for a nonempty pattern. -/
def pyReplaceDel (pat l : List Char) : List Char := delOccurs pat l.length l

/-- `re.search(r'\((\d{4}-\d{2}-\d{2})\)', line)` at one position:
a literal `(`, then exactly `dddd-dd-dd`, then a literal `)`; returns
the captured group. -/
def dailyDateAt : List Char → Option (List Char)
  | '(' :: a :: b :: c :: d :: '-' :: e :: f :: '-' :: g :: h :: ')' :: _ =>
    if [a, b, c, d, e, f, g, h].all isDigitC then some [a, b, c, d, '-', e, f, '-', g, h]
    else none
  | _ => none

/-- `re.search`: leftmost position where the daily date pattern
matches. -/
def searchDailyDate : List Char → Option (List Char)
  | [] => none
  | c :: rest =>
    match dailyDateAt (c :: rest) with
    | some d => some d
    | none => searchDailyDate rest

/-- `re.search(r'\((\d{4}-\d{2})\)', line)` at one position. -/
def monthDateAt : List Char → Option (List Char)
  | '(' :: a :: b :: c :: d :: '-' :: e :: f :: ')' :: _ =>
    if [a, b, c, d, e, f].all isDigitC then some [a, b, c, d, '-', e, f] else none
  | _ => none

/-- `re.search`: leftmost position where the monthly date pattern
matches. -/
def searchMonthDate : List Char → Option (List Char)
  | [] => none
  | c :: rest =>
    match monthDateAt (c :: rest) with
    | some d => some d
    | none => searchMonthDate rest

/-- One raw field record of `parse_bandwidth_data` (the dict built at
the `--- Interface` branch); `none` models Python `None` for the four
value fields. -/
structure RawEntry where
  interface : String
  data_referencia : String
  periodo : String
  entrada : Option String
  saida : Option String
  total : Option String
  taxa_media : Option String
deriving DecidableEq, Repr

/-- The mutable state of the `parse_bandwidth_data` loop:
`current_date`, `current_period` and the growing `data` list.  `data`
is kept most-recent-first (Python mutates `data[-1]`, here the head);
the parser reverses it at the end. -/
structure PState where
  current_date : Option String
  current_period : Option String
  data : List RawEntry
deriving DecidableEq, Repr

/-- The body of the `for line in lines` loop of
`parse_bandwidth_data`.  Branches appear in source order; the
`current_date and current_period` check models Python truthiness
(`None` and the empty string are falsy). -/
def stepLine (st : PState) (rawLine : List Char) : PState :=
  let line := trimChars rawLine
  if "- Ontem (".data.isPrefixOf line then
    match searchDailyDate line with
    | some d => { st with current_date := some ⟨d⟩, current_period := some "diario" }
    | none => st
  else if "- No mês (".data.isPrefixOf line then
    match searchMonthDate line with
    | some d => { st with current_date := some (⟨d⟩ ++ "-01"), current_period := some "mensal" }
    | none => st
  else if "--- Interface ".data.isPrefixOf line then
    match st.current_date, st.current_period with
    | some d, some p =>
      if d ≠ "" ∧ p ≠ "" then
        { st with data :=
            ⟨⟨trimChars (pyReplaceDel "--- Interface ".data line)⟩, d, p,
             none, none, none, none⟩ :: st.data }
      else st
    | _, _ => st
  else if "Entrada:".data.isPrefixOf line then
    match st.data with
    | [] => st
    | e :: rest =>
      { st with data := { e with entrada := some ⟨trimChars (pyReplaceDel "Entrada:".data line)⟩ } :: rest }
  else if "Saida:".data.isPrefixOf line then
    match st.data with
    | [] => st
    | e :: rest =>
      { st with data := { e with saida := some ⟨trimChars (pyReplaceDel "Saida:".data line)⟩ } :: rest }
  else if "Total:".data.isPrefixOf line then
    match st.data with
    | [] => st
    | e :: rest =>
      { st with data := { e with total := some ⟨trimChars (pyReplaceDel "Total:".data line)⟩ } :: rest }
  else if "Taxa de transferência média:".data.isPrefixOf line then
    match st.data with
    | [] => st
    | e :: rest =>
      { st with data :=
          { e with
            taxa_media := some ⟨trimChars (pyReplaceDel "Taxa de transferência média:".data line)⟩ }
          :: rest }
  else st

/-- `parse_bandwidth_data` of `app.py`: fold the line handler over the
newline-split input, starting from no context and no records. -/
def parse_bandwidth_data (text : String) : List RawEntry :=
  ((splitLines text.data).foldl stepLine ⟨none, none, []⟩).data.reverse

/-- The interface names seeded by `init_db`; the known-interfaces
lookup of `upload_data` resolves names against this set. -/
def knownInterfaces : List String := ["WAN", "CAMPUS", "DI", "ETICE_NUVENS", "ETICE_GOV"]

/-- One row of `consumo_banda` as written by `upload_data` (the
autoincrement id and timestamp are not modelled). -/
structure NormalizedRecord where
  interface : String
  data_referencia : String
  periodo : String
  entrada_bytes : Int
  saida_bytes : Int
  total_bytes : Int
  taxa_media_bps : Int
deriving DecidableEq, Repr

/-- The four conversions `upload_data` performs on one raw entry;
`none` models an exception escaping the loop. -/
def normalizeEntry (e : RawEntry) : Option NormalizedRecord :=
  match convert_to_bytes e.entrada, convert_to_bytes e.saida,
        convert_to_bytes e.total, convert_speed_to_bps e.taxa_media with
  | some a, some b, some c, some d =>
    some ⟨e.interface, e.data_referencia, e.periodo, a, b, c, d⟩
  | _, _, _, _ => none

/-- The per-entry loop of `upload_data`: unknown interfaces are
skipped, known ones are converted (an exception aborts the whole call,
modelled as `none`) and counted; returns `records_saved` and the
records handed to the store in order. -/
def processEntries : List RawEntry → Option (Nat × List NormalizedRecord)
  | [] => some (0, [])
  | e :: rest =>
    if e.interface ∈ knownInterfaces then
      match normalizeEntry e with
      | none => none
      | some r =>
        match processEntries rest with
        | none => none
        | some (n, rs) => some (n + 1, r :: rs)
    else processEntries rest

/-- The outcome of one `/api/upload` call: the `success` flag, the
`records_saved` counter, and the accepted records written to the store
(empty when the call fails, since the transaction is never
committed). -/
structure IngestResult where
  success : Bool
  records_saved : Nat
  accepted : List NormalizedRecord
deriving DecidableEq, Repr

/-- `upload_data` of `app.py`: empty input and an empty parse produce
failure responses; an exception in the loop produces a failure with a
rolled-back (hence empty) accepted set. -/
def upload_data (text : String) : IngestResult :=
  if text = "" then ⟨false, 0, []⟩
  else if parse_bandwidth_data text = [] then ⟨false, 0, []⟩
  else
    match processEntries (parse_bandwidth_data text) with
    | none => ⟨false, 0, []⟩
    | some (n, rs) => ⟨true, n, rs⟩

/-- The natural key of `consumo_banda`:
`UNIQUE(interface_id, data_referencia, periodo)` (interface names are
unique, so the name stands in for the id). -/
def recKey (r : NormalizedRecord) : String × String × String :=
  (r.interface, r.data_referencia, r.periodo)

/-- `INSERT OR REPLACE` on the modelled table: the row conflicting on
the natural key is deleted and the new row inserted. -/
def upsert (store : List NormalizedRecord) (r : NormalizedRecord) : List NormalizedRecord :=
  store.filter (fun x => !(decide (recKey x = recKey r))) ++ [r]

/-- Effect of one `/api/upload` call on the stored table: on success
all accepted records are upserted in order inside one committed
transaction; on failure nothing is committed. -/
def applyIngest (store : List NormalizedRecord) (text : String) : List NormalizedRecord :=
  if (upload_data text).success then (upload_data text).accepted.foldl upsert store
  else store

/-- A JSON scalar of the upload response. -/
inductive JVal where
  | jb : Bool → JVal
  | js : String → JVal
  | jn : Nat → JVal
deriving DecidableEq, Repr

/-- The JSON object `upload_data` returns to the caller, as a key/value
list.  The `str(e)` text of the exception branch is abbreviated to the
fixed `ValueError` prefix; no claim inspects it. -/
def upload_response (text : String) : List (String × JVal) :=
  if text = "" then
    [("success", JVal.jb false), ("message", JVal.js "Nenhum dado fornecido")]
  else if parse_bandwidth_data text = [] then
    [("success", JVal.jb false), ("message", JVal.js "Nenhum dado válido encontrado")]
  else
    match processEntries (parse_bandwidth_data text) with
    | none =>
      [("success", JVal.jb false), ("message", JVal.js "Erro: could not convert string to float")]
    | some (n, _) =>
      [("success", JVal.jb true),
       ("message", JVal.js ("Dados processados com sucesso! " ++ toString n ++ " registros salvos.")),
       ("records", JVal.jn n)]

/-- The end-to-end scenario text of the spec, for a given interface
name. -/
def sampleDailyText (ifc : String) : String :=
  "- Ontem (2024-03-15)\n--- Interface " ++ ifc ++
  "\nEntrada: 1.00GiB\nSaida: 500.00MiB\nTotal: 1.50GiB\nTaxa de transferência média: 10.00Mbit/s"

/-- An input with two interface sections carrying the same
(interface, date, period) triple. -/
def dupSectionText : String :=
  "- Ontem (2024-03-15)\n--- Interface WAN\nEntrada: 1.00GiB\n--- Interface WAN\nEntrada: 2.00GiB"

/-! ### Character-level facts -/

theorem isDigitC_iff {c : Char} : isDigitC c = true ↔ 48 ≤ c.toNat ∧ c.toNat ≤ 57 := by
  simp [isDigitC]

theorem isLowerC_iff {c : Char} : isLowerC c = true ↔ 97 ≤ c.toNat ∧ c.toNat ≤ 122 := by
  simp [isLowerC]

theorem char_toNat_inj {a b : Char} (h : a.toNat = b.toNat) : a = b := by
  have h2 : Char.ofNat a.toNat = Char.ofNat b.toNat := by rw [h]
  simpa using h2

theorem pyLowerChar_toNat (c : Char) :
    (pyLowerChar c).toNat =
      if 65 ≤ c.toNat ∧ c.toNat ≤ 90 then c.toNat + 32 else c.toNat := by
  unfold pyLowerChar
  split
  · next h =>
    have hv : (c.toNat + 32).isValidChar := Or.inl (by omega)
    rw [Char.ofNat, dif_pos hv]
    rfl
  · next h => rfl

theorem pyLowerChar_eq_self {c : Char} (h : c.toNat < 65 ∨ 90 < c.toNat) : pyLowerChar c = c := by
  unfold pyLowerChar
  rw [if_neg]
  omega

theorem ne_of_toNat_ne {c d : Char} (h : c.toNat ≠ d.toNat) : c ≠ d :=
  fun hc => h (by rw [hc])

theorem digit_pyLower {c : Char} (h : isDigitC c = true) : pyLowerChar c = c :=
  pyLowerChar_eq_self (by rw [isDigitC_iff] at h; omega)

theorem lower_pyLower {c : Char} (h : isLowerC c = true) : pyLowerChar c = c :=
  pyLowerChar_eq_self (by rw [isLowerC_iff] at h; omega)

theorem ne_space_of_toNat {c : Char} (h : c.toNat ≠ 32) : decide (c ≠ ' ') = true := by
  simp only [decide_eq_true_iff]
  exact ne_of_toNat_ne (by simpa using h)

theorem digit_isNumC {c : Char} (h : isDigitC c = true) : isNumC c = true := by
  simp [isNumC, h]

theorem dot_isNumC : isNumC '.' = true := by decide

theorem lower_not_numC {c : Char} (h : isLowerC c = true) : isNumC c = false := by
  rw [isLowerC_iff] at h
  simp only [isNumC, Bool.or_eq_false_iff, decide_eq_false_iff_not]
  refine ⟨by rw [Bool.eq_false_iff]; intro hd; rw [isDigitC_iff] at hd; omega, ?_⟩
  have hdot : ('.' : Char).toNat = 46 := rfl
  exact ne_of_toNat_ne (by omega)

theorem isSpaceC_eq_false {c : Char} (h : 33 ≤ c.toNat) : isSpaceC c = false := by
  simp only [isSpaceC, decide_eq_false_iff_not]
  rintro (rfl | rfl | rfl | rfl | rfl | rfl) <;> exact absurd h (by decide)

theorem digit_toNat_bounds {c : Char} (h : isDigitC c = true) :
    48 ≤ c.toNat ∧ c.toNat ≤ 57 := isDigitC_iff.mp h

theorem lower_toNat_bounds {c : Char} (h : isLowerC c = true) :
    97 ≤ c.toNat ∧ c.toNat ≤ 122 := isLowerC_iff.mp h

/-! ### Generic list helpers -/

theorem map_eq_self_of {α : Type} (f : α → α) :
    ∀ l : List α, (∀ c ∈ l, f c = c) → l.map f = l
  | [], _ => rfl
  | c :: l, h => by
    rw [List.map_cons, h c (.head _), map_eq_self_of f l (fun x hx => h x (.tail _ hx))]

theorem filter_eq_self_of {α : Type} (p : α → Bool) (l : List α)
    (h : ∀ c ∈ l, p c = true) : l.filter p = l :=
  List.filter_eq_self.mpr h

theorem takeWhile_append_all {α : Type} (p : α → Bool) :
    ∀ l₁ l₂ : List α, (∀ c ∈ l₁, p c = true) →
      (l₁ ++ l₂).takeWhile p = l₁ ++ l₂.takeWhile p
  | [], _, _ => rfl
  | c :: l₁, l₂, h => by
    have ih := takeWhile_append_all p l₁ l₂ (fun x hx => h x (.tail _ hx))
    simp [List.takeWhile_cons, h c (.head _), ih]

theorem dropWhile_append_all {α : Type} (p : α → Bool) :
    ∀ l₁ l₂ : List α, (∀ c ∈ l₁, p c = true) →
      (l₁ ++ l₂).dropWhile p = l₂.dropWhile p
  | [], _, _ => rfl
  | c :: l₁, l₂, h => by
    rw [List.cons_append, List.dropWhile_cons, if_pos (h c (.head _))]
    exact dropWhile_append_all p l₁ l₂ (fun x hx => h x (.tail _ hx))

theorem takeWhile_eq_self_of_all {α : Type} (p : α → Bool) (l : List α)
    (h : ∀ c ∈ l, p c = true) : l.takeWhile p = l := by
  have h2 := takeWhile_append_all p l [] h
  simpa using h2

theorem dropWhile_eq_nil_of_all {α : Type} (p : α → Bool) (l : List α)
    (h : ∀ c ∈ l, p c = true) : l.dropWhile p = [] := by
  have h2 := dropWhile_append_all p l [] h
  simpa using h2

theorem takeWhile_nil_of_neg {α : Type} (p : α → Bool) (c : α) (l : List α)
    (h : p c = false) : (c :: l).takeWhile p = [] := by
  rw [List.takeWhile_cons, if_neg (by simp [h])]

theorem dropWhile_id_of_neg {α : Type} (p : α → Bool) (c : α) (l : List α)
    (h : p c = false) : (c :: l).dropWhile p = c :: l := by
  rw [List.dropWhile_cons, if_neg (by simp [h])]

theorem dropWhile_eq_self_of_all_neg {α : Type} (p : α → Bool) :
    ∀ l : List α, (∀ c ∈ l, p c = false) → l.dropWhile p = l
  | [], _ => rfl
  | c :: l, h => dropWhile_id_of_neg p c l (h c (.head _))

theorem trimChars_eq_self (l : List Char) (h : ∀ c ∈ l, isSpaceC c = false) :
    trimChars l = l := by
  unfold trimChars
  rw [dropWhile_eq_self_of_all_neg _ l h]
  rw [dropWhile_eq_self_of_all_neg _ l.reverse (fun c hc => h c (List.mem_reverse.mp hc))]
  exact List.reverse_reverse l

theorem mem_trimChars {c : Char} {l : List Char} (h : c ∈ trimChars l) : c ∈ l := by
  unfold trimChars at h
  rw [List.mem_reverse] at h
  have h2 := (List.dropWhile_sublist (l := (l.dropWhile isSpaceC).reverse) isSpaceC).mem h
  rw [List.mem_reverse] at h2
  exact (List.dropWhile_sublist isSpaceC).mem h2

/-! ### Digit strings, `floatChars?`, truncation, unit lookup -/

theorem digitsValAux_nil (a : Nat) : digitsValAux a [] = a := rfl

theorem digitsValAux_cons (a : Nat) (c : Char) (l : List Char) :
    digitsValAux a (c :: l) = digitsValAux (a * 10 + digitVal c) l := rfl

theorem digitsValAux_lt (a : Nat) (l : List Char) :
    (∀ c ∈ l, isDigitC c = true) → digitsValAux a l < (a + 1) * 10 ^ l.length := by
  induction l generalizing a with
  | nil =>
    intro _
    rw [digitsValAux_nil]
    simp only [List.length_nil, pow_zero, Nat.mul_one]
    omega
  | cons c l ih =>
    intro h
    have hc := isDigitC_iff.mp (h c (.head _))
    have hd : digitVal c ≤ 9 := by unfold digitVal; omega
    have ih2 := ih (a * 10 + digitVal c) (fun x hx => h x (.tail _ hx))
    rw [digitsValAux_cons]
    simp only [List.length_cons]
    calc digitsValAux (a * 10 + digitVal c) l
        < (a * 10 + digitVal c + 1) * 10 ^ l.length := ih2
      _ ≤ ((a + 1) * 10) * 10 ^ l.length := Nat.mul_le_mul_right _ (by omega)
      _ = (a + 1) * 10 ^ (l.length + 1) := by ring

theorem digitsVal_lt (l : List Char) (h : ∀ c ∈ l, isDigitC c = true) :
    digitsVal l < 10 ^ l.length := by
  have h2 := digitsValAux_lt 0 l h
  simpa [digitsVal] using h2

theorem floatChars_digits (ds : List Char) (h1 : ds ≠ [])
    (h2 : ∀ c ∈ ds, isDigitC c = true) :
    floatChars? ds = some ((digitsVal ds : Int), 1) := by
  unfold floatChars?
  rw [takeWhile_eq_self_of_all _ ds h2, dropWhile_eq_nil_of_all _ ds h2]
  simp [h1]

theorem floatChars_digits_dot (ds fs : List Char) (h1 : ds ≠ [])
    (hds : ∀ c ∈ ds, isDigitC c = true) (hfs : ∀ c ∈ fs, isDigitC c = true) :
    floatChars? (ds ++ '.' :: fs) =
      some (((digitsVal ds * 10 ^ fs.length + digitsVal fs : Nat) : Int), 10 ^ fs.length) := by
  unfold floatChars?
  rw [takeWhile_append_all _ ds ('.' :: fs) hds, dropWhile_append_all _ ds ('.' :: fs) hds]
  rw [takeWhile_nil_of_neg _ '.' fs (by decide), dropWhile_id_of_neg _ '.' fs (by decide)]
  rw [List.append_nil]
  simp only []
  rw [if_pos ⟨List.all_eq_true.mpr (fun x hx => hfs x hx), Or.inl h1⟩]

theorem natCast_tdiv (m n : Nat) : Int.tdiv (m : Int) (n : Int) = ((m / n : Nat) : Int) := rfl

theorem fracTrunc_one (n : Int) : fracTrunc n 1 = n := by
  unfold fracTrunc
  exact Int.tdiv_one n

theorem fracTrunc_nonneg {n : Int} (d : Nat) (hn : 0 ≤ n) : 0 ≤ fracTrunc n d :=
  Int.tdiv_nonneg hn (Int.natCast_nonneg d)

theorem fracTrunc_eq_floor (n : Int) (d : Nat) (hn : 0 ≤ n) :
    fracTrunc n d = ⌊(n : ℚ) / (d : ℚ)⌋ := by
  unfold fracTrunc
  rw [Int.tdiv_eq_ediv hn (Int.natCast_nonneg d)]
  exact (Rat.floor_intCast_div_natCast n d).symm

theorem fracTrunc_bounds (n : Int) (d : Nat) (hn : 0 ≤ n) (hd : 0 < d) :
    ((fracTrunc n d : Int) : ℚ) ≤ (n : ℚ) / (d : ℚ) ∧
      (n : ℚ) / (d : ℚ) < ((fracTrunc n d : Int) : ℚ) + 1 := by
  rw [fracTrunc_eq_floor n d hn]
  exact ⟨Int.floor_le _, Int.lt_floor_add_one _⟩

theorem fracTrunc_frac_eq (a b k : Nat) (h : b < 10 ^ k) :
    fracTrunc ((a * 10 ^ k + b : Nat) : Int) (10 ^ k) = (a : Int) := by
  unfold fracTrunc
  rw [natCast_tdiv]
  congr 1
  rw [Nat.mul_comm a (10 ^ k), Nat.mul_add_div (Nat.pos_pow_of_pos k (by omega)),
    Nat.div_eq_of_lt h]
  omega

theorem unitsGet_pos : ∀ t : List (List Char × Nat), (∀ p ∈ t, 0 < p.2) →
    ∀ u, 0 < unitsGet t u
  | [], _, _ => by simp [unitsGet]
  | (k, m) :: rest, h, u => by
    unfold unitsGet
    split
    · exact h (k, m) (.head _)
    · exact unitsGet_pos rest (fun p hp => h p (.tail _ hp)) u

theorem unitsGet_not_mem : ∀ (t : List (List Char × Nat)) (u : List Char),
    (∀ p ∈ t, p.1 ≠ u) → unitsGet t u = 1
  | [], _, _ => rfl
  | (k, m) :: rest, u, h => by
    unfold unitsGet
    rw [if_neg (h (k, m) (.head _))]
    exact unitsGet_not_mem rest u (fun p hp => h p (.tail _ hp))

/-! ### Equation lemmas and branch analysis for the converters -/

theorem convert_to_bytes_none : convert_to_bytes none = some 0 := rfl

theorem convert_to_bytes_some (v : String) :
    convert_to_bytes (some v) =
      if v = "" ∨ v = "None" then some 0
      else if ((v.data.map pyLowerChar).filter (fun c => c ≠ ' ')).takeWhile isNumC ≠ [] ∧
          ((((v.data.map pyLowerChar).filter (fun c => c ≠ ' ')).dropWhile isNumC).takeWhile
            isLowerC) ≠ [] then
        (floatChars? (((v.data.map pyLowerChar).filter (fun c => c ≠ ' ')).takeWhile isNumC)).map
          (fun nd =>
            fracTrunc
              (nd.1 *
                (unitsGet sizeUnits
                  ((((v.data.map pyLowerChar).filter (fun c => c ≠ ' ')).dropWhile
                      isNumC).takeWhile isLowerC) : Int))
              nd.2)
      else
        (pyFloat? ((v.data.map pyLowerChar).filter (fun c => c ≠ ' '))).map
          (fun nd => fracTrunc nd.1 nd.2) := rfl

theorem convert_speed_to_bps_none : convert_speed_to_bps none = some 0 := rfl

theorem convert_speed_to_bps_some (v : String) :
    convert_speed_to_bps (some v) =
      if v = "" ∨ v = "None" then some 0
      else if ((v.data.map pyLowerChar).filter (fun c => c ≠ ' ')).takeWhile isNumC ≠ [] ∧
          ((((v.data.map pyLowerChar).filter (fun c => c ≠ ' ')).dropWhile isNumC).takeWhile
            isLowerC) ≠ [] ∧
          ((((v.data.map pyLowerChar).filter (fun c => c ≠ ' ')).dropWhile isNumC).dropWhile
            isLowerC).take 2 = ['/', 's'] then
        (floatChars? (((v.data.map pyLowerChar).filter (fun c => c ≠ ' ')).takeWhile isNumC)).map
          (fun nd =>
            fracTrunc
              (nd.1 *
                (unitsGet rateUnits
                  (((((v.data.map pyLowerChar).filter (fun c => c ≠ ' ')).dropWhile
                        isNumC).takeWhile isLowerC) ++ ['/', 's']) : Int))
              nd.2)
      else
        (pyFloat? ((v.data.map pyLowerChar).filter (fun c => c ≠ ' '))).map
          (fun nd => fracTrunc nd.1 nd.2) := rfl

theorem pyFloatSigned_cons (c : Char) (rest : List Char) :
    pyFloatSigned (c :: rest) =
      if c = '-' then (floatChars? rest).map (fun nd => (-nd.1, nd.2))
      else if c = '+' then floatChars? rest
      else floatChars? (c :: rest) := rfl

theorem numC_toNat {c : Char} (h : isNumC c = true) :
    c.toNat = 46 ∨ (48 ≤ c.toNat ∧ c.toNat ≤ 57) := by
  simp only [isNumC, Bool.or_eq_true, decide_eq_true_eq] at h
  rcases h with h | h
  · right
    exact isDigitC_iff.mp h
  · left
    rw [h]
    rfl

theorem numC_stable {c : Char} (h : isNumC c = true) :
    pyLowerChar c = c ∧ c.toNat ≠ 32 := by
  rcases numC_toNat h with h2 | h2
  · exact ⟨pyLowerChar_eq_self (by omega), by omega⟩
  · exact ⟨pyLowerChar_eq_self (by omega), by omega⟩

theorem lower_stable {c : Char} (h : isLowerC c = true) :
    pyLowerChar c = c ∧ c.toNat ≠ 32 := by
  have h2 := lower_toNat_bounds h
  exact ⟨pyLowerChar_eq_self (by omega), by omega⟩

theorem lowerFilter_id (w : List Char)
    (h : ∀ c ∈ w, pyLowerChar c = c ∧ c.toNat ≠ 32) :
    (w.map pyLowerChar).filter (fun c => decide (c ≠ ' ')) = w := by
  rw [map_eq_self_of pyLowerChar w (fun c hc => (h c hc).1)]
  exact filter_eq_self_of _ w (fun c hc => ne_space_of_toNat (h c hc).2)

theorem guard_false_of_head (c : Char) (rest : List Char) (hc : isNumC c = true) :
    ¬((⟨c :: rest⟩ : String) = "" ∨ (⟨c :: rest⟩ : String) = "None") := by
  rintro (he | he)
  · have h2 : c :: rest = ([] : List Char) := congrArg String.data he
    exact absurd h2 (by simp)
  · have h2 : c :: rest = ['N', 'o', 'n', 'e'] := congrArg String.data he
    injection h2 with h3 _
    rw [h3] at hc
    exact absurd hc (by decide)

theorem convert_to_bytes_match_eq (c : Char) (numt ul : List Char)
    (hnum : ∀ x ∈ c :: numt, isNumC x = true) (hu : ul ≠ [])
    (hul : ∀ x ∈ ul, isLowerC x = true) :
    convert_to_bytes (some ⟨c :: (numt ++ ul)⟩) =
      (floatChars? (c :: numt)).map
        (fun nd => fracTrunc (nd.1 * (unitsGet sizeUnits ul : Int)) nd.2) := by
  obtain ⟨u, ut, rfl⟩ : ∃ u ut, ul = u :: ut := by
    cases ul with
    | nil => exact absurd rfl hu
    | cons u ut => exact ⟨u, ut, rfl⟩
  rw [convert_to_bytes_some, if_neg (guard_false_of_head c _ (hnum c (.head _)))]
  have hdata : (⟨c :: (numt ++ u :: ut)⟩ : String).data = c :: (numt ++ u :: ut) := rfl
  rw [hdata]
  have hl : ((c :: (numt ++ u :: ut)).map pyLowerChar).filter (fun x => decide (x ≠ ' ')) =
      c :: (numt ++ u :: ut) := by
    apply lowerFilter_id
    intro x hx
    rcases List.mem_cons.mp hx with rfl | hx2
    · exact numC_stable (hnum x (.head _))
    · rcases List.mem_append.mp hx2 with hx3 | hx3
      · exact numC_stable (hnum x (.tail _ hx3))
      · exact lower_stable (hul x hx3)
  rw [hl]
  have hcons : c :: (numt ++ u :: ut) = (c :: numt) ++ u :: ut := rfl
  rw [hcons]
  rw [takeWhile_append_all isNumC (c :: numt) (u :: ut) hnum]
  rw [dropWhile_append_all isNumC (c :: numt) (u :: ut) hnum]
  rw [takeWhile_nil_of_neg isNumC u ut (lower_not_numC (hul u (.head _)))]
  rw [List.append_nil]
  rw [dropWhile_id_of_neg isNumC u ut (lower_not_numC (hul u (.head _)))]
  rw [takeWhile_eq_self_of_all isLowerC (u :: ut) hul]
  rw [if_pos ⟨by simp, by simp⟩]

theorem convert_speed_match_eq (c : Char) (numt ul : List Char)
    (hnum : ∀ x ∈ c :: numt, isNumC x = true) (hu : ul ≠ [])
    (hul : ∀ x ∈ ul, isLowerC x = true) :
    convert_speed_to_bps (some ⟨c :: (numt ++ (ul ++ ['/', 's']))⟩) =
      (floatChars? (c :: numt)).map
        (fun nd => fracTrunc (nd.1 * (unitsGet rateUnits (ul ++ ['/', 's']) : Int)) nd.2) := by
  obtain ⟨u, ut, rfl⟩ : ∃ u ut, ul = u :: ut := by
    cases ul with
    | nil => exact absurd rfl hu
    | cons u ut => exact ⟨u, ut, rfl⟩
  rw [convert_speed_to_bps_some, if_neg (guard_false_of_head c _ (hnum c (.head _)))]
  have hdata : (⟨c :: (numt ++ (u :: ut ++ ['/', 's']))⟩ : String).data =
      c :: (numt ++ (u :: ut ++ ['/', 's'])) := rfl
  rw [hdata]
  have hl : ((c :: (numt ++ (u :: ut ++ ['/', 's']))).map pyLowerChar).filter
        (fun x => decide (x ≠ ' ')) = c :: (numt ++ (u :: ut ++ ['/', 's'])) := by
    apply lowerFilter_id
    intro x hx
    rcases List.mem_cons.mp hx with rfl | hx2
    · exact numC_stable (hnum x (.head _))
    · rcases List.mem_append.mp hx2 with hx3 | hx3
      · exact numC_stable (hnum x (.tail _ hx3))
      · rcases List.mem_append.mp hx3 with hx4 | hx4
        · exact lower_stable (hul x hx4)
        · rcases List.mem_cons.mp hx4 with rfl | hx5
          · exact ⟨by decide, by decide⟩
          · rcases List.mem_cons.mp hx5 with rfl | hx6
            · exact ⟨by decide, by decide⟩
            · exact absurd hx6 (by simp)
  rw [hl]
  have hcons : c :: (numt ++ (u :: ut ++ ['/', 's'])) = (c :: numt) ++ (u :: ut ++ ['/', 's']) := rfl
  rw [hcons]
  rw [takeWhile_append_all isNumC (c :: numt) (u :: ut ++ ['/', 's']) hnum]
  rw [dropWhile_append_all isNumC (c :: numt) (u :: ut ++ ['/', 's']) hnum]
  have hnn : isNumC u = false := lower_not_numC (hul u (.head _))
  rw [show u :: ut ++ ['/', 's'] = u :: (ut ++ ['/', 's']) from rfl]
  rw [takeWhile_nil_of_neg isNumC u (ut ++ ['/', 's']) hnn]
  rw [List.append_nil]
  rw [dropWhile_id_of_neg isNumC u (ut ++ ['/', 's']) hnn]
  rw [show u :: (ut ++ ['/', 's']) = (u :: ut) ++ ['/', 's'] from rfl]
  rw [takeWhile_append_all isLowerC (u :: ut) ['/', 's'] hul]
  rw [dropWhile_append_all isLowerC (u :: ut) ['/', 's'] hul]
  rw [takeWhile_nil_of_neg isLowerC '/' ['s'] (by decide)]
  rw [List.append_nil]
  rw [dropWhile_id_of_neg isLowerC '/' ['s'] (by decide)]
  rw [if_pos ⟨by simp, by simp, rfl⟩]

theorem pyFloat_digits (c : Char) (dt : List Char)
    (h : ∀ x ∈ c :: dt, isDigitC x = true) :
    pyFloat? (c :: dt) = some ((digitsVal (c :: dt) : Int), 1) := by
  have htrim : trimChars (c :: dt) = c :: dt := by
    apply trimChars_eq_self
    intro x hx
    have h2 := isDigitC_iff.mp (h x hx)
    exact isSpaceC_eq_false (by omega)
  have hc := isDigitC_iff.mp (h c (.head _))
  unfold pyFloat?
  rw [htrim, pyFloatSigned_cons]
  rw [if_neg (ne_of_toNat_ne (by have : ('-' : Char).toNat = 45 := rfl; omega))]
  rw [if_neg (ne_of_toNat_ne (by have : ('+' : Char).toNat = 43 := rfl; omega))]
  exact floatChars_digits (c :: dt) (by simp) h

theorem convert_to_bytes_digits (c : Char) (dt : List Char)
    (h : ∀ x ∈ c :: dt, isDigitC x = true) :
    convert_to_bytes (some ⟨c :: dt⟩) = some (digitsVal (c :: dt) : Int) := by
  have hnum : ∀ x ∈ c :: dt, isNumC x = true := fun x hx => digit_isNumC (h x hx)
  rw [convert_to_bytes_some, if_neg (guard_false_of_head c dt (hnum c (.head _)))]
  have hdata : (⟨c :: dt⟩ : String).data = c :: dt := rfl
  rw [hdata]
  have hl : ((c :: dt).map pyLowerChar).filter (fun x => decide (x ≠ ' ')) = c :: dt :=
    lowerFilter_id _ (fun x hx => numC_stable (hnum x hx))
  rw [hl]
  rw [takeWhile_eq_self_of_all isNumC _ hnum, dropWhile_eq_nil_of_all isNumC _ hnum]
  rw [if_neg (by simp)]
  rw [pyFloat_digits c dt h]
  simp only [Option.map_some']
  rw [fracTrunc_one]

theorem convert_speed_digits (c : Char) (dt : List Char)
    (h : ∀ x ∈ c :: dt, isDigitC x = true) :
    convert_speed_to_bps (some ⟨c :: dt⟩) = some (digitsVal (c :: dt) : Int) := by
  have hnum : ∀ x ∈ c :: dt, isNumC x = true := fun x hx => digit_isNumC (h x hx)
  rw [convert_speed_to_bps_some, if_neg (guard_false_of_head c dt (hnum c (.head _)))]
  have hdata : (⟨c :: dt⟩ : String).data = c :: dt := rfl
  rw [hdata]
  have hl : ((c :: dt).map pyLowerChar).filter (fun x => decide (x ≠ ' ')) = c :: dt :=
    lowerFilter_id _ (fun x hx => numC_stable (hnum x hx))
  rw [hl]
  rw [takeWhile_eq_self_of_all isNumC _ hnum, dropWhile_eq_nil_of_all isNumC _ hnum]
  rw [if_neg (by simp)]
  rw [pyFloat_digits c dt h]
  simp only [Option.map_some']
  rw [fracTrunc_one]

/-! ### Sign analysis of the converters -/

theorem floatChars_nonneg (l : List Char) (nd : Int × Nat)
    (h : floatChars? l = some nd) : 0 ≤ nd.1 := by
  unfold floatChars? at h
  split at h
  · split at h
    · exact absurd h (by simp)
    · injection h with h2
      rw [← h2]
      exact Int.natCast_nonneg _
  · split at h
    · injection h with h2
      rw [← h2]
      exact Int.natCast_nonneg _
    · exact absurd h (by simp)
  · exact absurd h (by simp)

theorem pyFloat_nonneg (l : List Char) (nd : Int × Nat) (h : pyFloat? l = some nd)
    (hm : '-' ∉ l) : 0 ≤ nd.1 := by
  unfold pyFloat? at h
  rcases heq : trimChars l with _ | ⟨c, rest⟩
  · rw [heq] at h
    exact absurd h (by simp [pyFloatSigned])
  · rw [heq, pyFloatSigned_cons] at h
    split at h
    · next hc =>
      subst hc
      have hmem : '-' ∈ trimChars l := by rw [heq]; exact .head _
      exact absurd (mem_trimChars hmem) hm
    · split at h
      · exact floatChars_nonneg _ _ h
      · exact floatChars_nonneg _ _ h

theorem no_minus_in_processed (v : String) (hm : '-' ∉ v.data) :
    '-' ∉ (v.data.map pyLowerChar).filter (fun c => decide (c ≠ ' ')) := by
  intro hmem
  have h2 := List.mem_of_mem_filter hmem
  obtain ⟨c, hc, hlc⟩ := List.mem_map.mp h2
  have h3 := pyLowerChar_toNat c
  have h4 : (pyLowerChar c).toNat = 45 := by rw [hlc]; rfl
  have h5 : c.toNat = 45 := by
    by_cases h6 : 65 ≤ c.toNat ∧ c.toNat ≤ 90
    · rw [if_pos h6] at h3; omega
    · rw [if_neg h6] at h3; omega
  exact hm (by rwa [char_toNat_inj (a := c) (b := '-') (by rw [h5]; rfl)] at hc)

theorem convert_to_bytes_nonneg (ov : Option String) (n : Int)
    (h : convert_to_bytes ov = some n) (hm : ∀ s, ov = some s → '-' ∉ s.data) : 0 ≤ n := by
  cases ov with
  | none =>
    rw [convert_to_bytes_none] at h
    injection h with h2
    omega
  | some v =>
    rw [convert_to_bytes_some] at h
    split at h
    · injection h with h2
      omega
    · split at h
      · rw [Option.map_eq_some'] at h
        obtain ⟨nd, hnd, hfn⟩ := h
        rw [← hfn]
        exact fracTrunc_nonneg _
          (mul_nonneg (floatChars_nonneg _ _ hnd) (Int.natCast_nonneg _))
      · rw [Option.map_eq_some'] at h
        obtain ⟨nd, hnd, hfn⟩ := h
        rw [← hfn]
        exact fracTrunc_nonneg _
          (pyFloat_nonneg _ _ hnd (no_minus_in_processed v (hm v rfl)))

theorem convert_speed_to_bps_nonneg (ov : Option String) (n : Int)
    (h : convert_speed_to_bps ov = some n) (hm : ∀ s, ov = some s → '-' ∉ s.data) : 0 ≤ n := by
  cases ov with
  | none =>
    rw [convert_speed_to_bps_none] at h
    injection h with h2
    omega
  | some v =>
    rw [convert_speed_to_bps_some] at h
    split at h
    · injection h with h2
      omega
    · split at h
      · rw [Option.map_eq_some'] at h
        obtain ⟨nd, hnd, hfn⟩ := h
        rw [← hfn]
        exact fracTrunc_nonneg _
          (mul_nonneg (floatChars_nonneg _ _ hnd) (Int.natCast_nonneg _))
      · rw [Option.map_eq_some'] at h
        obtain ⟨nd, hnd, hfn⟩ := h
        rw [← hfn]
        exact fracTrunc_nonneg _
          (pyFloat_nonneg _ _ hnd (no_minus_in_processed v (hm v rfl)))

/-! ### The modelled store: normal form of repeated upserts -/

/-- Does some record in `l` carry the key `k`? -/
def hasKeyIn (l : List NormalizedRecord) (k : String × String × String) : Bool :=
  l.any (fun y => decide (recKey y = k))

/-- The records of `l` that are not superseded by a later record with
the same key, in order: the rows a batch of upserts leaves behind. -/
def lastOcc : List NormalizedRecord → List NormalizedRecord
  | [] => []
  | r :: l => if hasKeyIn l (recKey r) then lastOcc l else r :: lastOcc l

theorem hasKeyIn_nil (k : String × String × String) : hasKeyIn [] k = false := rfl

theorem hasKeyIn_cons (r : NormalizedRecord) (l : List NormalizedRecord)
    (k : String × String × String) :
    hasKeyIn (r :: l) k = (decide (recKey r = k) || hasKeyIn l k) := by
  unfold hasKeyIn
  rw [List.any_cons]

theorem lastOcc_cons (r : NormalizedRecord) (l : List NormalizedRecord) :
    lastOcc (r :: l) = if hasKeyIn l (recKey r) then lastOcc l else r :: lastOcc l := rfl

theorem mem_lastOcc_hasKey (l : List NormalizedRecord) :
    ∀ x ∈ lastOcc l, hasKeyIn l (recKey x) = true := by
  induction l with
  | nil => intro x hx; exact absurd hx (by simp [lastOcc])
  | cons r l ih =>
    intro x hx
    rw [lastOcc_cons] at hx
    rw [hasKeyIn_cons]
    by_cases h : hasKeyIn l (recKey r) = true
    · rw [if_pos h] at hx
      rw [ih x hx]
      simp
    · rw [if_neg h] at hx
      rcases List.mem_cons.mp hx with rfl | hx2
      · simp
      · rw [ih x hx2]
        simp

theorem foldl_upsert_nf (l : List NormalizedRecord) (s : List NormalizedRecord) :
    l.foldl upsert s =
      s.filter (fun x => !(hasKeyIn l (recKey x))) ++ lastOcc l := by
  induction l generalizing s with
  | nil =>
    rw [List.foldl_nil]
    have h1 : s.filter (fun x => !(hasKeyIn [] (recKey x))) = s :=
      filter_eq_self_of _ s (fun x _ => by rw [hasKeyIn_nil]; rfl)
    rw [h1]
    show s = s ++ ([] : List NormalizedRecord)
    rw [List.append_nil]
  | cons r l ih =>
    rw [List.foldl_cons, ih (upsert s r)]
    unfold upsert
    rw [List.filter_append, List.filter_filter]
    have hsing : List.filter (fun x => !(hasKeyIn l (recKey x))) [r] =
        if hasKeyIn l (recKey r) then ([] : List NormalizedRecord) else [r] := by
      by_cases h : hasKeyIn l (recKey r) = true
      · rw [if_pos h]
        simp [List.filter, h]
      · rw [if_neg h]
        simp only [Bool.not_eq_true] at h
        simp [List.filter, h]
    have hfil : s.filter (fun x =>
        !(hasKeyIn l (recKey x)) && !(decide (recKey x = recKey r))) =
        s.filter (fun x => !(hasKeyIn (r :: l) (recKey x))) := by
      apply List.filter_congr
      intro x _
      rw [hasKeyIn_cons, Bool.not_or]
      have hcomm : decide (recKey r = recKey x) = decide (recKey x = recKey r) := by
        simp [eq_comm]
      rw [hcomm]
      rw [Bool.and_comm]
    rw [hsing, hfil, lastOcc_cons]
    by_cases h : hasKeyIn l (recKey r) = true
    · rw [if_pos h, if_pos h, List.append_nil]
    · rw [if_neg h, if_neg h, List.append_assoc, List.singleton_append]

theorem foldl_upsert_idem (l : List NormalizedRecord) (s : List NormalizedRecord) :
    l.foldl upsert (l.foldl upsert s) = l.foldl upsert s := by
  rw [foldl_upsert_nf l s, foldl_upsert_nf l (s.filter _ ++ lastOcc l)]
  rw [List.filter_append, List.filter_filter]
  have h1 : s.filter (fun x =>
      !(hasKeyIn l (recKey x)) && !(hasKeyIn l (recKey x))) =
      s.filter (fun x => !(hasKeyIn l (recKey x))) :=
    List.filter_congr (fun x _ => Bool.and_self _)
  have h2 : (lastOcc l).filter (fun x => !(hasKeyIn l (recKey x))) = [] := by
    rw [List.filter_eq_nil_iff]
    intro x hx
    rw [mem_lastOcc_hasKey l x hx]
    simp
  rw [h1, h2, List.append_nil]

/-! ### Skipping unknown interfaces, upload bookkeeping -/

theorem processEntries_nil : processEntries [] = some (0, []) := rfl

theorem processEntries_cons (e : RawEntry) (rest : List RawEntry) :
    processEntries (e :: rest) =
      if e.interface ∈ knownInterfaces then
        match normalizeEntry e with
        | none => none
        | some r =>
          match processEntries rest with
          | none => none
          | some (n, rs) => some (n + 1, r :: rs)
      else processEntries rest := rfl

theorem processEntries_skip (pre post : List RawEntry) (e : RawEntry)
    (h : e.interface ∉ knownInterfaces) :
    processEntries (pre ++ e :: post) = processEntries (pre ++ post) := by
  induction pre with
  | nil =>
    rw [List.nil_append, List.nil_append, processEntries_cons, if_neg h]
  | cons a pre ih =>
    rw [List.cons_append, List.cons_append, processEntries_cons, processEntries_cons a (pre ++ post), ih]

theorem normalizeEntry_fields (e : RawEntry) (r : NormalizedRecord)
    (h : normalizeEntry e = some r) :
    convert_to_bytes e.entrada = some r.entrada_bytes ∧
    convert_to_bytes e.saida = some r.saida_bytes ∧
    convert_to_bytes e.total = some r.total_bytes ∧
    convert_speed_to_bps e.taxa_media = some r.taxa_media_bps := by
  unfold normalizeEntry at h
  rcases h1 : convert_to_bytes e.entrada with _ | a <;> rw [h1] at h
  · exact Option.noConfusion h
  rcases h2 : convert_to_bytes e.saida with _ | b <;> rw [h2] at h
  · exact Option.noConfusion h
  rcases h3 : convert_to_bytes e.total with _ | c <;> rw [h3] at h
  · exact Option.noConfusion h
  rcases h4 : convert_speed_to_bps e.taxa_media with _ | d <;> rw [h4] at h
  · exact Option.noConfusion h
  injection h with h5
  rw [← h5]
  exact ⟨rfl, rfl, rfl, rfl⟩

/-! ### Claim theorems -/

/-- C1: for every known interface, an ingestion input consisting of a
daily-context marker with date 2024-03-15 followed by an interface
section whose value lines give inbound "1.00GiB", outbound
"500.00MiB", total "1.50GiB" and rate "10.00Mbit/s" is accepted as
exactly one record with inbound 1073741824, outbound 524288000, total
1610612736 and rate 10000000, period `diario` and reference date
2024-03-15. -/
theorem upload_daily_scenario_accepts_one (ifc : String) (h : ifc ∈ knownInterfaces) :
    upload_data (sampleDailyText ifc) =
      ⟨true, 1, [⟨ifc, "2024-03-15", "diario", 1073741824, 524288000, 1610612736, 10000000⟩]⟩ := by
  simp only [knownInterfaces, List.mem_cons, List.not_mem_nil, or_false] at h
  rcases h with rfl | rfl | rfl | rfl | rfl <;> decide

theorem upload_daily_scenario_accepts_one_witness :
    "WAN" ∈ knownInterfaces ∧
      upload_data (sampleDailyText "WAN") =
        ⟨true, 1, [⟨"WAN", "2024-03-15", "diario", 1073741824, 524288000, 1610612736,
          10000000⟩]⟩ :=
  ⟨by decide, upload_daily_scenario_accepts_one "WAN" (by decide)⟩

/-- C2 counterexample: the converters do not return an integer for
every input string; on "abc" both raise (modelled as `none`), and an
ingestion whose value line carries "abc" for a known interface aborts
as a failure with nothing stored. -/
theorem converters_raise_on_malformed :
    convert_to_bytes (some "abc") = none ∧ convert_speed_to_bps (some "abc") = none ∧
      upload_data "- Ontem (2024-03-15)\n--- Interface WAN\nEntrada: abc" = ⟨false, 0, []⟩ :=
  ⟨by decide, by decide, by decide⟩

/-- C2 (amended): the converters return an integer on absent input, on
bare digit strings, and on digit strings followed by a letter unit
(with the rate converter additionally requiring the literal "/s");
outside these shapes malformed numeric text raises an error that
aborts the whole ingestion rather than falling back permissively. -/
theorem converters_total_on_wellformed (ds us : List Char) (h1 : ds ≠ [])
    (h2 : ∀ c ∈ ds, isDigitC c = true) (h3 : ∀ c ∈ us, isLowerC c = true) :
    (convert_to_bytes (some ⟨ds ++ us⟩)).isSome = true ∧
    (convert_speed_to_bps (some ⟨ds⟩)).isSome = true ∧
    (us ≠ [] → (convert_speed_to_bps (some ⟨ds ++ us ++ ['/', 's']⟩)).isSome = true) := by
  obtain ⟨c, dt, rfl⟩ : ∃ c dt, ds = c :: dt := by
    cases ds with
    | nil => exact absurd rfl h1
    | cons c dt => exact ⟨c, dt, rfl⟩
  refine ⟨?_, ?_, ?_⟩
  · by_cases h4 : us = []
    · subst h4
      rw [List.append_nil]
      rw [convert_to_bytes_digits c dt h2]
      rfl
    · obtain ⟨u, ut, rfl⟩ : ∃ u ut, us = u :: ut := by
        cases us with
        | nil => exact absurd rfl h4
        | cons u ut => exact ⟨u, ut, rfl⟩
      rw [show (c :: dt) ++ u :: ut = c :: (dt ++ u :: ut) from rfl]
      rw [convert_to_bytes_match_eq c dt (u :: ut)
        (fun x hx => digit_isNumC (h2 x hx)) (by simp) h3]
      rw [floatChars_digits (c :: dt) (by simp) h2]
      rfl
  · rw [convert_speed_digits c dt h2]
    rfl
  · intro h4
    obtain ⟨u, ut, rfl⟩ : ∃ u ut, us = u :: ut := by
      cases us with
      | nil => exact absurd rfl h4
      | cons u ut => exact ⟨u, ut, rfl⟩
    rw [show (c :: dt) ++ (u :: ut) ++ ['/', 's'] = c :: (dt ++ ((u :: ut) ++ ['/', 's'])) from by
      simp]
    rw [convert_speed_match_eq c dt (u :: ut)
      (fun x hx => digit_isNumC (h2 x hx)) (by simp) h3]
    rw [floatChars_digits (c :: dt) (by simp) h2]
    rfl

theorem converters_total_on_wellformed_witness :
    (convert_to_bytes (some "12xy")).isSome = true ∧
    (convert_speed_to_bps (some "12")).isSome = true ∧
    (convert_speed_to_bps (some "12xy/s")).isSome = true := by
  have h := converters_total_on_wellformed ['1', '2'] ['x', 'y'] (by decide) (by decide) (by decide)
  exact ⟨h.1, h.2.1, h.2.2 (by decide)⟩

/-- C3 counterexample: a parsed value line "Entrada: -5" for a known
interface is accepted and stored with the negative value -5, so the
numeric fields of a normalized record are not always non-negative. -/
theorem negative_literal_yields_negative_record :
    upload_data "- Ontem (2024-03-15)\n--- Interface WAN\nEntrada: -5" =
      ⟨true, 1, [⟨"WAN", "2024-03-15", "diario", -5, 0, 0, 0⟩]⟩ ∧
    (⟨"WAN", "2024-03-15", "diario", -5, 0, 0, 0⟩ : NormalizedRecord).entrada_bytes < 0 :=
  ⟨by decide, by decide⟩

/-- C3 (amended): every normalized record's numeric fields are
integers with absence of source data represented as 0; they are
non-negative whenever the corresponding raw string contains no minus
sign (the unguarded bare-number fallback accepts a leading sign, which
is the only way a negative value can arise). -/
theorem normalized_fields_nonneg_and_zero_absent (e : RawEntry) (r : NormalizedRecord)
    (h : normalizeEntry e = some r) :
    ((∀ s, e.entrada = some s → '-' ∉ s.data) → 0 ≤ r.entrada_bytes) ∧
    (e.entrada = none → r.entrada_bytes = 0) ∧
    ((∀ s, e.saida = some s → '-' ∉ s.data) → 0 ≤ r.saida_bytes) ∧
    (e.saida = none → r.saida_bytes = 0) ∧
    ((∀ s, e.total = some s → '-' ∉ s.data) → 0 ≤ r.total_bytes) ∧
    (e.total = none → r.total_bytes = 0) ∧
    ((∀ s, e.taxa_media = some s → '-' ∉ s.data) → 0 ≤ r.taxa_media_bps) ∧
    (e.taxa_media = none → r.taxa_media_bps = 0) := by
  obtain ⟨h1, h2, h3, h4⟩ := normalizeEntry_fields e r h
  refine ⟨fun hm => convert_to_bytes_nonneg _ _ h1 hm, fun hn => ?_,
    fun hm => convert_to_bytes_nonneg _ _ h2 hm, fun hn => ?_,
    fun hm => convert_to_bytes_nonneg _ _ h3 hm, fun hn => ?_,
    fun hm => convert_speed_to_bps_nonneg _ _ h4 hm, fun hn => ?_⟩
  · rw [hn, convert_to_bytes_none] at h1
    injection h1 with h5
    omega
  · rw [hn, convert_to_bytes_none] at h2
    injection h2 with h5
    omega
  · rw [hn, convert_to_bytes_none] at h3
    injection h3 with h5
    omega
  · rw [hn, convert_speed_to_bps_none] at h4
    injection h4 with h5
    omega

theorem normalized_fields_nonneg_and_zero_absent_witness :
    0 ≤ (⟨"WAN", "2024-03-15", "diario", 0, 0, 0, 0⟩ : NormalizedRecord).entrada_bytes ∧
    (⟨"WAN", "2024-03-15", "diario", 0, 0, 0, 0⟩ : NormalizedRecord).taxa_media_bps = 0 := by
  have h := normalized_fields_nonneg_and_zero_absent
    ⟨"WAN", "2024-03-15", "diario", none, none, none, none⟩
    ⟨"WAN", "2024-03-15", "diario", 0, 0, 0, 0⟩ (by decide)
  exact ⟨h.1 (fun s hs => Option.noConfusion hs), h.2.2.2.2.2.2.2 rfl⟩

/-- C4: a raw record whose interface name is not in the known set is
dropped silently: removing it from the entry list changes neither the
accepted count nor the accepted records, and no error arises from it
(the result is the same `Option` value, not `none`). -/
theorem unknown_interface_contributes_nothing (pre post : List RawEntry) (e : RawEntry)
    (h : e.interface ∉ knownInterfaces) :
    processEntries (pre ++ e :: post) = processEntries (pre ++ post) :=
  processEntries_skip pre post e h

theorem unknown_interface_contributes_nothing_witness :
    processEntries ([] ++ ⟨"eth0", "2024-03-15", "diario", none, none, none, none⟩ :: []) =
      processEntries ([] ++ []) :=
  unknown_interface_contributes_nothing [] []
    ⟨"eth0", "2024-03-15", "diario", none, none, none, none⟩ (by decide)

/-- C5: ingesting the identical text twice leaves exactly the same
stored record content as ingesting it once; the second ingestion
overwrites each (interface, reference_date, period) row in full and
neither duplicates rows nor sums values. -/
theorem double_ingest_idempotent (store : List NormalizedRecord) (text : String) :
    applyIngest (applyIngest store text) text = applyIngest store text := by
  simp only [applyIngest]
  by_cases h : (upload_data text).success = true <;> simp [h, foldl_upsert_idem]

theorem digits_dot_numC (c : Char) (dt fs : List Char)
    (h2 : ∀ x ∈ c :: dt, isDigitC x = true) (h3 : ∀ x ∈ fs, isDigitC x = true) :
    ∀ x ∈ c :: (dt ++ '.' :: fs), isNumC x = true := by
  intro x hx
  rcases List.mem_cons.mp hx with rfl | hx2
  · exact digit_isNumC (h2 x (.head _))
  · rcases List.mem_append.mp hx2 with hx3 | hx3
    · exact digit_isNumC (h2 x (.tail _ hx3))
    · rcases List.mem_cons.mp hx3 with rfl | hx4
      · exact dot_isNumC
      · exact digit_isNumC (h3 x hx4)

/-- C6 counterexample: "10.5kb" has the form <number><unit> with a
unit that is not a recognized rate unit, yet `parse_rate` raises
(modelled as `none`) instead of returning the numeric portion 10,
because the rate regex demands a "/s" suffix before any fallback. -/
theorem rate_unknown_unit_without_slash_raises :
    convert_speed_to_bps (some "10.5kb") = none := by decide

/-- C6 (amended): the multiplier-1 fallback of `parse_rate` applies
only to units of the shape <letters>/s: for any such unit outside the
recognized rate units the numeric portion is truncated to an integer
with multiplier 1; a unit suffix without "/s" never matches and the
bare-number fallback raises on it instead. -/
theorem rate_unknown_slash_unit_multiplier_one (ds fs us : List Char) (h1 : ds ≠ [])
    (h2 : ∀ c ∈ ds, isDigitC c = true) (h3 : ∀ c ∈ fs, isDigitC c = true)
    (h4 : us ≠ []) (h5 : ∀ c ∈ us, isLowerC c = true)
    (h6 : ∀ p ∈ rateUnits, p.1 ≠ us ++ ['/', 's']) :
    convert_speed_to_bps (some ⟨ds ++ '.' :: fs ++ us ++ ['/', 's']⟩) =
      some ((digitsVal ds : Int)) := by
  obtain ⟨c, dt, rfl⟩ : ∃ c dt, ds = c :: dt := by
    cases ds with
    | nil => exact absurd rfl h1
    | cons c dt => exact ⟨c, dt, rfl⟩
  have hnum := digits_dot_numC c dt fs h2 h3
  rw [show (c :: dt) ++ '.' :: fs ++ us ++ ['/', 's'] =
      c :: ((dt ++ '.' :: fs) ++ (us ++ ['/', 's'])) from by simp]
  rw [convert_speed_match_eq c (dt ++ '.' :: fs) us hnum h4 h5]
  rw [show c :: (dt ++ '.' :: fs) = (c :: dt) ++ '.' :: fs from rfl]
  rw [floatChars_digits_dot (c :: dt) fs (by simp) h2 h3]
  rw [unitsGet_not_mem rateUnits (us ++ ['/', 's']) h6]
  simp only [Option.map_some']
  rw [Nat.cast_one, mul_one, fracTrunc_frac_eq _ _ _ (digitsVal_lt fs h3)]

theorem rate_unknown_slash_unit_multiplier_one_witness :
    convert_speed_to_bps (some "10.5xyz/s") = some 10 := by
  have h := rate_unknown_slash_unit_multiplier_one ['1', '0'] ['5'] ['x', 'y', 'z']
    (by decide) (by decide) (by decide) (by decide) (by decide) (by decide)
  exact h

/-- C7: `parse_size("2.58TiB")` is 2.58·1024⁴ truncated toward zero,
`parse_size("")` is 0, `parse_size("500")` is 500, and in general for a
digits-dot-digits numeric portion with the `tib` unit the result `n` is
bounded by `n ≤ exact value < n + 1` (truncation toward zero of a
non-negative value, never rounding to nearest). -/
theorem parse_size_truncation :
    convert_to_bytes (some "2.58TiB") = some 2836739999662 ∧
    convert_to_bytes (some "") = some 0 ∧
    convert_to_bytes (some "500") = some 500 ∧
    (∀ (ds fs : List Char) (n : Int), ds ≠ [] → (∀ c ∈ ds, isDigitC c = true) →
      (∀ c ∈ fs, isDigitC c = true) →
      convert_to_bytes (some ⟨ds ++ '.' :: fs ++ ['t', 'i', 'b']⟩) = some n →
      ((n : ℚ) ≤ ((digitsVal ds : ℚ) + (digitsVal fs : ℚ) / 10 ^ fs.length) * 1024 ^ 4 ∧
        ((digitsVal ds : ℚ) + (digitsVal fs : ℚ) / 10 ^ fs.length) * 1024 ^ 4 < (n : ℚ) + 1)) := by
  refine ⟨by decide, by decide, by decide, ?_⟩
  intro ds fs n h1 h2 h3 hconv
  obtain ⟨c, dt, rfl⟩ : ∃ c dt, ds = c :: dt := by
    cases ds with
    | nil => exact absurd rfl h1
    | cons c dt => exact ⟨c, dt, rfl⟩
  have hnum := digits_dot_numC c dt fs h2 h3
  rw [show (c :: dt) ++ '.' :: fs ++ ['t', 'i', 'b'] =
      c :: ((dt ++ '.' :: fs) ++ ['t', 'i', 'b']) from rfl] at hconv
  rw [convert_to_bytes_match_eq c (dt ++ '.' :: fs) ['t', 'i', 'b'] hnum (by simp)
    (by decide)] at hconv
  rw [show c :: (dt ++ '.' :: fs) = (c :: dt) ++ '.' :: fs from rfl] at hconv
  rw [floatChars_digits_dot (c :: dt) fs (by simp) h2 h3] at hconv
  rw [show unitsGet sizeUnits ['t', 'i', 'b'] = 1024 ^ 4 from by decide] at hconv
  rw [Option.map_some'] at hconv
  injection hconv with h5
  rw [← h5]
  have hb := fracTrunc_bounds
    (((digitsVal (c :: dt) * 10 ^ fs.length + digitsVal fs : Nat) : Int) * ((1024 ^ 4 : Nat) : Int))
    (10 ^ fs.length)
    (mul_nonneg (Int.natCast_nonneg _) (Int.natCast_nonneg _))
    (pow_pos (by omega) _)
  have heq : ((((digitsVal (c :: dt) * 10 ^ fs.length + digitsVal fs : Nat) : Int) *
        ((1024 ^ 4 : Nat) : Int) : Int) : ℚ) / ((10 ^ fs.length : Nat) : ℚ) =
      ((digitsVal (c :: dt) : ℚ) + (digitsVal fs : ℚ) / 10 ^ fs.length) * 1024 ^ 4 := by
    have hpow : ((10 : ℚ) ^ fs.length) ≠ 0 := pow_ne_zero _ (by norm_num)
    push_cast
    rw [← div_mul_eq_mul_div]
    rw [add_div, mul_div_cancel_right₀ _ hpow]
    norm_num
  rw [heq] at hb
  exact hb

theorem parse_size_truncation_witness :
    convert_to_bytes (some "2.58tib") = some 2836739999662 ∧
    (((2836739999662 : Int) : ℚ) ≤
        ((digitsVal ['2'] : ℚ) + (digitsVal ['5', '8'] : ℚ) /
          10 ^ (['5', '8'] : List Char).length) * 1024 ^ 4 ∧
      ((digitsVal ['2'] : ℚ) + (digitsVal ['5', '8'] : ℚ) /
          10 ^ (['5', '8'] : List Char).length) * 1024 ^ 4 < ((2836739999662 : Int) : ℚ) + 1) := by
  have h := parse_size_truncation.2.2.2 ['2'] ['5', '8'] 2836739999662
    (by decide) (by decide) (by decide) (by decide)
  exact ⟨by decide, h⟩

/-- C8 counterexample: two successful ingestions with different
accepted record sets produce identical responses, so the result
returned to the caller cannot contain the set of accepted records; it
carries only the flag, the message and the count. -/
theorem upload_response_equal_but_records_differ :
    upload_response (sampleDailyText "WAN") = upload_response (sampleDailyText "CAMPUS") ∧
    (upload_data (sampleDailyText "WAN")).accepted ≠
      (upload_data (sampleDailyText "CAMPUS")).accepted :=
  ⟨by decide, by decide⟩

/-- C8 (amended): the result returned to the caller of a successful
ingestion contains the accepted count — as the "records" field (and
embedded in the message) — but not the accepted records themselves. -/
theorem upload_response_contains_count (text : String)
    (h : (upload_data text).success = true) :
    ("records", JVal.jn (upload_data text).records_saved) ∈ upload_response text := by
  by_cases h1 : text = ""
  · unfold upload_data at h
    rw [if_pos h1] at h
    exact absurd h (by simp)
  by_cases h2 : parse_bandwidth_data text = []
  · unfold upload_data at h
    rw [if_neg h1, if_pos h2] at h
    exact absurd h (by simp)
  rcases hp : processEntries (parse_bandwidth_data text) with _ | ⟨n, rs⟩
  · unfold upload_data at h
    rw [if_neg h1, if_neg h2, hp] at h
    exact absurd h (by simp)
  · have hu : upload_data text = ⟨true, n, rs⟩ := by
      unfold upload_data
      rw [if_neg h1, if_neg h2, hp]
    have hr : upload_response text =
        [("success", JVal.jb true),
         ("message",
           JVal.js ("Dados processados com sucesso! " ++ toString n ++ " registros salvos.")),
         ("records", JVal.jn n)] := by
      unfold upload_response
      rw [if_neg h1, if_neg h2, hp]
    rw [hu, hr]
    simp

theorem upload_response_contains_count_witness :
    ("records", JVal.jn (upload_data (sampleDailyText "WAN")).records_saved) ∈
      upload_response (sampleDailyText "WAN") :=
  upload_response_contains_count (sampleDailyText "WAN") (by decide)

/-- C9: at the parser's per-line level, when no date/period context is
active (both components `none`) but the record list is nonempty, an
interface section line is ignored (the state is unchanged, no record is
created), and the inbound/outbound/total/rate value lines that follow
such an ignored section overwrite the fields of the unrelated
most-recently-appended record instead of being ignored. -/
theorem orphan_value_lines_mutate_previous_record (e : RawEntry) (rest : List RawEntry) :
    stepLine ⟨none, none, e :: rest⟩ ("--- Interface FOO".data) = ⟨none, none, e :: rest⟩ ∧
    List.foldl stepLine ⟨none, none, e :: rest⟩
        ["--- Interface FOO".data, "Entrada: 9.99GiB".data, "Saida: 8.88GiB".data,
         "Total: 7.77GiB".data, "Taxa de transferência média: 6.66Mbit/s".data] =
      ⟨none, none,
        { e with entrada := some "9.99GiB", saida := some "8.88GiB", total := some "7.77GiB",
                 taxa_media := some "6.66Mbit/s" } :: rest⟩ :=
  ⟨rfl, rfl⟩

/-- C10: an input with two sections for the same (interface, date,
period) triple reports records_saved = 2 while the upsert keeps a
single stored row, so the reported count exceeds the rows present in
storage after the call. -/
theorem duplicate_sections_records_saved_exceeds_rows :
    (upload_data dupSectionText).records_saved = 2 ∧
    (applyIngest [] dupSectionText).length = 1 ∧
    (applyIngest [] dupSectionText).length < (upload_data dupSectionText).records_saved :=
  ⟨by decide, by decide, by decide⟩
